import Mathlib

/-!
Verification of the minimax tic-tac-toe engine (src/src/app.ts).

The TypeScript source is shallowly embedded:
* `CellValue`, `GameState`, `WINNER_POSITIONS` mirror the data model.
* `Board` is the cell array `_state`; `Board.insert`, `Board.getAvailableMoves`,
  `Board.getFinishState`, `Board.calculateGameState`, `Board.isEmpty`,
  `Board.isFull` mirror the `Board` class methods.  JavaScript exceptions
  (`throw new Error`) become `Except.error`; the truthiness test
  `this._state[position]` is `≠ CellValue.Empty` (the `Empty` enum value is the
  empty string, which is falsy; `X`/`O` are truthy).
* `Player.getBestMoveF` mirrors `Player.getBestMove` with `Player.minimax`
  inlined (in the source `getBestMove` and `minimax` are mutually recursive and
  `minimax`'s body is a single `forEach` loop; here the loop is the `foldl`).
  The recursion is indexed by explicit fuel; each nested call is made with one
  unit less fuel, and every successor board has one fewer empty cell, so fuel
  `countEmpty board + 1` (used by the wrapper `Player.getBestMove`) exactly
  covers the whole game tree and the out-of-fuel branch is unreachable.
* The mutable `this.nodesMap : Map<number, number | string>` is threaded as an
  insertion-ordered association list `NodesMap`; the comma-separated string
  `"i,j,k"` (or single number `i`) stored per score is the list `[i, j, k]`,
  `split(',')[0]` is the head.
* The side-effecting `callback` is modelled by its invocation log: the third
  component of the result is the list of arguments the callback was invoked
  with during the call, in order.
* `Store`/`getBestMoveMutF` re-embed the same recursion with the in-place
  mutation structure made explicit (a heap of board cell-arrays addressed by
  reference), to state the frame property that the caller's board is never
  mutated: `new Board([...board.getState()])` allocates a fresh copy and
  `insert` is only ever invoked on that fresh copy.  The tally and the callback
  only store numbers and strings, never a board, so they are omitted from this
  second embedding.
-/

inductive CellValue where
  | Empty : CellValue
  | X : CellValue
  | O : CellValue
deriving DecidableEq, Repr

/-- `winner` is either one of the two cell symbols or the string `'DRAW'`. -/
inductive Winner where
  | sym : CellValue → Winner
  | draw : Winner
deriving DecidableEq, Repr

structure GameState where
  winnerPositions : Option (Nat × Nat × Nat) := none
  winner : Option Winner := none
  finished : Bool
deriving DecidableEq, Repr

/-- The eight winning lines, in source order: 3 rows, 3 columns, 2 diagonals. -/
def WINNER_POSITIONS : List (Nat × Nat × Nat) :=
  [(0, 1, 2), (3, 4, 5), (6, 7, 8), (0, 3, 6), (1, 4, 7), (2, 5, 8), (0, 4, 8), (2, 4, 6)]

/-- A board is the `_state` cell array of the `Board` class. -/
abbrev Board := List CellValue

inductive InsertError where
  | invalidPosition : InsertError
  | invalidSymbol : InsertError
deriving DecidableEq, Repr

/-- `Board.isEmpty`: every cell is `Empty`. -/
def Board.isEmptyB (s : Board) : Bool :=
  s.all (fun cell => cell = CellValue.Empty)

/-- `Board.isFull`: no cell is `Empty`. -/
def Board.isFullB (s : Board) : Bool :=
  s.all (fun cell => cell ≠ CellValue.Empty)

/-- `Board.insert(symbol, position)`: position range check, then symbol check,
then the occupied-cell check (`this._state[position]` truthiness), then the
in-place write, here a functional `List.set`. -/
def Board.insert (s : Board) (symbol : CellValue) (position : Int) :
    Except InsertError (Bool × Board) :=
  if position < 0 ∨ position > 8 then
    Except.error InsertError.invalidPosition
  else if ¬ (symbol = CellValue.O ∨ symbol = CellValue.X) then
    Except.error InsertError.invalidSymbol
  else if s.getD position.toNat CellValue.Empty ≠ CellValue.Empty then
    Except.ok (false, s)
  else
    Except.ok (true, s.set position.toNat symbol)

/-- The board after `insert` as the search uses it (`nextBoard.insert(cellValue,
index)` with the returned boolean ignored).  The `Except.error` branch stands
for a thrown exception; it is unreachable from the search on 9-cell boards,
where every available move is a valid position. -/
def Board.insertApply (s : Board) (symbol : CellValue) (position : Int) : Board :=
  match Board.insert s symbol position with
  | Except.ok (_, s') => s'
  | Except.error _ => s

/-- `Board.getAvailableMoves`: the `reduce` that collects the indices of
`Empty` cells in ascending index order, here as a recursion carrying the
current index. -/
def Board.availableAux (k : Nat) (s : Board) : List Nat :=
  match s with
  | [] => []
  | cell :: rest =>
    if cell = CellValue.Empty then k :: Board.availableAux (k + 1) rest
    else Board.availableAux (k + 1) rest

def Board.getAvailableMoves (s : Board) : List Nat :=
  Board.availableAux 0 s

/-- `Board.calculateGameState(p1, p2, p3)`: a line is finished when its three
cells are non-`Empty` and equal; the first cell's symbol is the winner. -/
def Board.calculateGameState (s : Board) (p1 p2 p3 : Nat) : GameState :=
  let v1 := s.getD p1 CellValue.Empty
  let v2 := s.getD p2 CellValue.Empty
  let v3 := s.getD p3 CellValue.Empty
  if v1 ≠ CellValue.Empty ∧ v2 ≠ CellValue.Empty ∧ v3 ≠ CellValue.Empty ∧ v1 = v2 ∧ v1 = v3
  then { winnerPositions := some (p1, p2, p3), winner := some (Winner.sym v1), finished := true }
  else { finished := false }

/-- `Board.getFinishState`: empty board, then full board (reported as a draw
before any line is examined), then the first finished line found by
`.map(...).find(state => state.finished)`. -/
def Board.getFinishState (s : Board) : GameState :=
  if Board.isEmptyB s then
    { finished := false }
  else if Board.isFullB s then
    { winner := some Winner.draw, finished := true }
  else
    match (WINNER_POSITIONS.map
        (fun t => Board.calculateGameState s t.1 t.2.1 t.2.2)).find?
        (fun st => st.finished) with
    | some st => st
    | none => { finished := false }

/-- Number of `Empty` cells of a board. -/
def countEmpty (s : Board) : Nat :=
  (s.filter (fun cell => decide (cell = CellValue.Empty))).length

/-- Number of occupied (non-`Empty`) cells of a board. -/
def occupiedCount (s : Board) : Nat :=
  (s.filter (fun cell => decide (cell ≠ CellValue.Empty))).length

/-- The `nodesMap : Map<number, number | string>` tally: keys in insertion
order, each value the list of move indices recorded for that score. -/
abbrev NodesMap := List (Int × List Nat)

def NodesMap.getBucket (m : NodesMap) (k : Int) : Option (List Nat) :=
  (m.find? (fun p => p.1 == k)).map (fun p => p.2)

/-- `Map.set`: overwrite in place when the key exists, append otherwise. -/
def NodesMap.setBucket (m : NodesMap) (k : Int) (v : List Nat) : NodesMap :=
  if m.any (fun p => p.1 == k) then
    m.map (fun p => if p.1 == k then (k, v) else p)
  else
    m ++ [(k, v)]

/-- `getBestMoveAndExecuteCallback(moves, best, callback)`: the first index of
the bucket for `best` (a lone number, or `split(',')[0]` of the joined string);
the callback is invoked once with that index (second component: the invocation
log).  A missing or empty bucket would yield `undefined` in JavaScript; it is
modelled as `0` and is unreachable from the search, whose bucket for `best` is
always non-empty. -/
def getBestMoveAndExecuteCallback (moves : NodesMap) (best : Int) : Int × List Int :=
  let returnValue : Int :=
    match NodesMap.getBucket moves best with
    | some (i :: _) => (i : Int)
    | some [] => 0
    | none => 0
  (returnValue, [returnValue])

/-- One iteration of the `forEach` loop of `Player.minimax`: build the
successor board (`new Board([...board.getState()])` followed by `insert`),
evaluate it with `eval` (the recursive `getBestMove` call, which threads the
`nodesMap` and yields the callback invocation log), update `best` with
`Math.max`/`Math.min`, and at `depth === 0` record the move index in the
tally bucket of its score (appending after existing entries). -/
def Player.minimaxStep (eval : NodesMap → Board → Int × NodesMap × List Int)
    (board : Board) (cellValue : CellValue) (maximizing : Bool) (depth : Nat)
    (acc : Int × NodesMap × List Int) (index : Nat) : Int × NodesMap × List Int :=
  let nextBoard := Board.insertApply board cellValue (index : Int)
  let child := eval acc.2.1 nextBoard
  let nodeValue := child.1
  let best := if maximizing then max acc.1 nodeValue else min acc.1 nodeValue
  let logs := acc.2.2 ++ child.2.2
  if depth = 0 then
    let bucket := (NodesMap.getBucket child.2.1 nodeValue).getD []
    (best, NodesMap.setBucket child.2.1 nodeValue (bucket ++ [index]), logs)
  else
    (best, child.2.1, logs)

/-- `Player.getBestMove(board, maximizing, callback, depth)` with
`Player.minimax` inlined (the `else` branch), indexed by fuel.  Result:
(returned number, `nodesMap` after the call, callback invocation log). -/
def Player.getBestMoveF : Nat → Int → NodesMap → Board → Bool → Nat → Int × NodesMap × List Int
  | 0, _, nm, _, _, _ => (0, nm, [])
  | fuel + 1, maxDepth, nm0, board, maximizing, depth =>
    let nm1 := if depth = 0 then ([] : NodesMap) else nm0
    let state := Board.getFinishState board
    if state.finished = true ∨ (depth : Int) = maxDepth then
      (if state.winner = some (Winner.sym CellValue.X) then (100 : Int) - depth
       else if state.winner = some (Winner.sym CellValue.O) then (-100 : Int) + depth
       else 0, nm1, [])
    else
      let cellValue := if maximizing then CellValue.X else CellValue.O
      let seed : Int := if maximizing then -100 else 100
      let res := (Board.getAvailableMoves board).foldl
        (Player.minimaxStep
          (fun nm next => Player.getBestMoveF fuel maxDepth nm next (!maximizing) (depth + 1))
          board cellValue maximizing depth)
        (seed, nm1, ([] : List Int))
      if depth = 0 then
        let rc := getBestMoveAndExecuteCallback res.2.1 res.1
        (rc.1, res.2.1, res.2.2 ++ rc.2)
      else
        res

/-- `Player.getBestMove` with the fuel instantiated to cover the whole game
tree from `board` (one unit per ply, one ply per empty cell, plus the root). -/
def Player.getBestMove (maxDepth : Int) (nm : NodesMap) (board : Board)
    (maximizing : Bool) (depth : Nat) : Int × NodesMap × List Int :=
  Player.getBestMoveF (countEmpty board + 1) maxDepth nm board maximizing depth

/-- The score the search assigns to playing move `i` from `board` at root ply
`depth` (the value of the recursive `getBestMove` call on the successor). -/
def Player.childScoreAt (maxDepth : Int) (board : Board) (maximizing : Bool)
    (depth : Nat) (i : Nat) : Int :=
  (Player.getBestMove maxDepth []
    (Board.insertApply board (if maximizing then CellValue.X else CellValue.O) (i : Int))
    (!maximizing) (depth + 1)).1

def Player.childScore (maxDepth : Int) (board : Board) (maximizing : Bool) (i : Nat) : Int :=
  Player.childScoreAt maxDepth board maximizing 0 i

/-- The aggregated `best` value over the available moves at ply `depth`:
`max` seeded with `-100` when maximizing, `min` seeded with `100` otherwise. -/
def Player.bestScoreAt (maxDepth : Int) (board : Board) (maximizing : Bool)
    (depth : Nat) : Int :=
  if maximizing then
    ((Board.getAvailableMoves board).map
      (Player.childScoreAt maxDepth board maximizing depth)).foldl max (-100)
  else
    ((Board.getAvailableMoves board).map
      (Player.childScoreAt maxDepth board maximizing depth)).foldl min 100

def Player.bestRootScore (maxDepth : Int) (board : Board) (maximizing : Bool) : Int :=
  Player.bestScoreAt maxDepth board maximizing 0

/-! ### Basic board lemmas -/

theorem occupiedCount_add_countEmpty (s : Board) :
    occupiedCount s + countEmpty s = s.length := by
  induction s with
  | nil => rfl
  | cons c rest ih =>
    simp only [occupiedCount, countEmpty, List.filter_cons, List.length_cons,
      ne_eq, decide_not] at *
    by_cases h : c = CellValue.Empty <;> simp [h] <;> omega

theorem countEmpty_le_length (s : Board) : countEmpty s ≤ s.length := by
  have := occupiedCount_add_countEmpty s
  omega

theorem mem_availableAux (s : Board) : ∀ k i : Nat,
    i ∈ Board.availableAux k s ↔
      ∃ j, j < s.length ∧ i = k + j ∧ s.getD j CellValue.Empty = CellValue.Empty := by
  induction s with
  | nil => simp [Board.availableAux]
  | cons c rest ih =>
    intro k i
    by_cases h : c = CellValue.Empty
    · simp only [Board.availableAux, if_pos h, List.mem_cons, ih (k + 1) i]
      constructor
      · rintro (rfl | ⟨j, hj, rfl, hg⟩)
        · exact ⟨0, by simp, by omega, by simpa using h⟩
        · exact ⟨j + 1, by simpa using hj, by omega, by simpa using hg⟩
      · rintro ⟨j, hj, rfl, hg⟩
        cases j with
        | zero => left; omega
        | succ j' =>
          right
          exact ⟨j', by simpa using hj, by omega, by simpa using hg⟩
    · simp only [Board.availableAux, if_neg h, ih (k + 1) i]
      constructor
      · rintro ⟨j, hj, rfl, hg⟩
        exact ⟨j + 1, by simpa using hj, by omega, by simpa using hg⟩
      · rintro ⟨j, hj, rfl, hg⟩
        cases j with
        | zero => simp only [List.getD_cons_zero] at hg; exact absurd hg h
        | succ j' =>
          exact ⟨j', by simpa using hj, by omega, by simpa using hg⟩

theorem mem_getAvailableMoves (s : Board) (i : Nat) :
    i ∈ Board.getAvailableMoves s ↔
      i < s.length ∧ s.getD i CellValue.Empty = CellValue.Empty := by
  rw [Board.getAvailableMoves, mem_availableAux]
  constructor
  · rintro ⟨j, hj, rfl, hg⟩
    simp only [Nat.zero_add]
    exact ⟨hj, hg⟩
  · rintro ⟨hi, hg⟩; exact ⟨i, hi, by omega, hg⟩

theorem pairwise_availableAux (s : Board) :
    ∀ k : Nat, List.Pairwise (· < ·) (Board.availableAux k s) := by
  induction s with
  | nil => intro k; simp [Board.availableAux]
  | cons c rest ih =>
    intro k
    by_cases h : c = CellValue.Empty
    · simp only [Board.availableAux, if_pos h]
      refine List.Pairwise.cons ?_ (ih (k + 1))
      intro b hb
      rcases (mem_availableAux rest (k + 1) b).mp hb with ⟨j, _, rfl, _⟩
      omega
    · simp only [Board.availableAux, if_neg h]
      exact ih (k + 1)

theorem length_availableAux (s : Board) :
    ∀ k : Nat, (Board.availableAux k s).length = countEmpty s := by
  induction s with
  | nil => intro k; rfl
  | cons c rest ih =>
    intro k
    simp only [Board.availableAux, countEmpty, List.filter_cons]
    by_cases h : c = CellValue.Empty <;>
      simp only [h, if_true, if_false, decide_eq_true_eq, if_pos, if_neg, not_false_eq_true,
        List.length_cons] <;>
      simp [h, ih (k + 1), countEmpty]

theorem length_getAvailableMoves (s : Board) :
    (Board.getAvailableMoves s).length = countEmpty s :=
  length_availableAux s 0

theorem isFullB_iff_countEmpty (s : Board) :
    Board.isFullB s = true ↔ countEmpty s = 0 := by
  induction s with
  | nil => simp [Board.isFullB, countEmpty]
  | cons c rest ih =>
    simp only [Board.isFullB, countEmpty, List.all_cons, List.filter_cons,
      Bool.and_eq_true, decide_eq_true_eq] at *
    by_cases h : c = CellValue.Empty <;> simp [h, ih]

theorem isEmptyB_countEmpty (s : Board) :
    Board.isEmptyB s = true → countEmpty s = s.length := by
  induction s with
  | nil => intro _; rfl
  | cons c rest ih =>
    intro h
    simp only [Board.isEmptyB, List.all_cons, Bool.and_eq_true, decide_eq_true_eq] at h
    have hr := ih (by simpa [Board.isEmptyB] using h.2)
    simp only [countEmpty, List.filter_cons, List.length_cons] at *
    simp [h.1, hr]

theorem countEmpty_pos_of_not_finished (s : Board) (hlen : s.length = 9)
    (hnf : (Board.getFinishState s).finished = false) : 1 ≤ countEmpty s := by
  by_contra h
  have hce : countEmpty s = 0 := by omega
  have hfull : Board.isFullB s = true := (isFullB_iff_countEmpty s).mpr hce
  have hne : Board.isEmptyB s = false := by
    by_contra he
    have he' : Board.isEmptyB s = true := by
      cases hh : Board.isEmptyB s
      · exact absurd hh he
      · rfl
    have := isEmptyB_countEmpty s he'
    omega
  rw [Board.getFinishState, hne, hfull] at hnf
  simp at hnf

theorem getD_set_self (s : Board) : ∀ j : Nat, j < s.length → ∀ v : CellValue,
    (s.set j v).getD j CellValue.Empty = v := by
  induction s with
  | nil => intro j hj; simp at hj
  | cons c rest ih =>
    intro j hj v
    cases j with
    | zero => simp
    | succ j' =>
      simp only [List.set_cons_succ, List.getD_cons_succ]
      exact ih j' (by simpa using hj) v

theorem getD_set_ne (s : Board) : ∀ j i : Nat, i ≠ j → ∀ v : CellValue,
    (s.set j v).getD i CellValue.Empty = s.getD i CellValue.Empty := by
  induction s with
  | nil => intro j i _ v; simp
  | cons c rest ih =>
    intro j i hij v
    cases j with
    | zero =>
      cases i with
      | zero => exact absurd rfl hij
      | succ i' => simp
    | succ j' =>
      cases i with
      | zero => simp
      | succ i' =>
        simp only [List.set_cons_succ, List.getD_cons_succ]
        exact ih j' i' (by omega) v

theorem countEmpty_set (s : Board) : ∀ j : Nat, j < s.length →
    s.getD j CellValue.Empty = CellValue.Empty → ∀ v : CellValue, v ≠ CellValue.Empty →
    countEmpty (s.set j v) + 1 = countEmpty s := by
  induction s with
  | nil => intro j hj; simp at hj
  | cons c rest ih =>
    intro j hj hg v hv
    cases j with
    | zero =>
      simp only [List.getD_cons_zero] at hg
      simp [countEmpty, List.filter_cons, hg, hv]
    | succ j' =>
      simp only [List.getD_cons_succ] at hg
      have := ih j' (by simpa using hj) hg v hv
      simp only [countEmpty, List.filter_cons, List.set_cons_succ] at *
      by_cases h : c = CellValue.Empty <;> simp [h] at * <;> omega

theorem occupiedCount_set (s : Board) : ∀ j : Nat, j < s.length →
    s.getD j CellValue.Empty = CellValue.Empty → ∀ v : CellValue, v ≠ CellValue.Empty →
    occupiedCount (s.set j v) = occupiedCount s + 1 := by
  intro j hj hg v hv
  have h1 := countEmpty_set s j hj hg v hv
  have h2 := occupiedCount_add_countEmpty (s.set j v)
  have h3 := occupiedCount_add_countEmpty s
  have h4 : (s.set j v).length = s.length := by simp
  omega

theorem insertApply_length (s : Board) (symbol : CellValue) (position : Int) :
    (Board.insertApply s symbol position).length = s.length := by
  rw [Board.insertApply, Board.insert]
  by_cases h1 : position < 0 ∨ position > 8
  · rw [if_pos h1]
  · rw [if_neg h1]
    by_cases h2 : ¬(symbol = CellValue.O ∨ symbol = CellValue.X)
    · rw [if_pos h2]
    · rw [if_neg h2]
      by_cases h3 : s.getD position.toNat CellValue.Empty ≠ CellValue.Empty
      · rw [if_pos h3]
      · rw [if_neg h3]
        simp

theorem insertApply_eq_set (s : Board) (symbol : CellValue) (i : Nat)
    (hi : i ≤ 8) (hsym : symbol = CellValue.O ∨ symbol = CellValue.X)
    (hg : s.getD i CellValue.Empty = CellValue.Empty) :
    Board.insertApply s symbol (i : Int) = s.set i symbol := by
  have h1 : ¬((i : Int) < 0 ∨ (i : Int) > 8) := by omega
  have ht : ((i : Int)).toNat = i := by omega
  rw [Board.insertApply, Board.insert, if_neg h1, if_neg (not_not_intro hsym), ht,
    if_neg (not_not_intro hg)]

theorem symbol_ne_empty {symbol : CellValue}
    (hsym : symbol = CellValue.O ∨ symbol = CellValue.X) : symbol ≠ CellValue.Empty := by
  rcases hsym with h | h <;> simp [h]

theorem countEmpty_insertApply (s : Board) (symbol : CellValue) (i : Nat)
    (hlen : s.length = 9) (hsym : symbol = CellValue.O ∨ symbol = CellValue.X)
    (hmem : i ∈ Board.getAvailableMoves s) :
    countEmpty (Board.insertApply s symbol (i : Int)) + 1 = countEmpty s := by
  obtain ⟨hi, hg⟩ := (mem_getAvailableMoves s i).mp hmem
  rw [insertApply_eq_set s symbol i (by omega) hsym hg]
  exact countEmpty_set s i hi hg symbol (symbol_ne_empty hsym)

/-! ### Claim C4: the `insert` contract -/

/-- C4: `insert` fails with `InvalidPosition` for every position outside
`[0,8]`; for an in-range position it fails with `InvalidSymbol` for every
symbol other than `X` and `O`; for a valid symbol it returns `false` leaving
the board unchanged when the target cell is occupied; and on an `Empty` target
it succeeds, changing exactly the target cell to the symbol and increasing the
occupied-cell count by exactly one. -/
theorem c4_insert_contract (s : Board) (symbol : CellValue) (position : Int) :
    ((position < 0 ∨ position > 8) →
      Board.insert s symbol position = Except.error InsertError.invalidPosition) ∧
    (0 ≤ position → position ≤ 8 → symbol ≠ CellValue.X → symbol ≠ CellValue.O →
      Board.insert s symbol position = Except.error InsertError.invalidSymbol) ∧
    (0 ≤ position → position ≤ 8 → (symbol = CellValue.O ∨ symbol = CellValue.X) →
      s.getD position.toNat CellValue.Empty ≠ CellValue.Empty →
      Board.insert s symbol position = Except.ok (false, s)) ∧
    (0 ≤ position → position ≤ 8 → (symbol = CellValue.O ∨ symbol = CellValue.X) →
      s.getD position.toNat CellValue.Empty = CellValue.Empty →
      Board.insert s symbol position = Except.ok (true, s.set position.toNat symbol) ∧
      (∀ j : Nat, j ≠ position.toNat →
        (s.set position.toNat symbol).getD j CellValue.Empty = s.getD j CellValue.Empty) ∧
      (position.toNat < s.length →
        (s.set position.toNat symbol).getD position.toNat CellValue.Empty = symbol ∧
        occupiedCount (s.set position.toNat symbol) = occupiedCount s + 1)) := by
  refine ⟨?_, ?_, ?_, ?_⟩
  · intro h
    rw [Board.insert, if_pos h]
  · intro h0 h8 hX hO
    have hns : ¬(symbol = CellValue.O ∨ symbol = CellValue.X) := by
      rintro (h | h)
      · exact hO h
      · exact hX h
    rw [Board.insert, if_neg (by omega), if_pos hns]
  · intro h0 h8 hsym hocc
    rw [Board.insert, if_neg (by omega), if_neg (not_not_intro hsym), if_pos hocc]
  · intro h0 h8 hsym hemp
    refine ⟨?_, ?_, ?_⟩
    · rw [Board.insert, if_neg (by omega), if_neg (not_not_intro hsym),
        if_neg (not_not_intro hemp)]
    · intro j hj
      exact getD_set_ne s position.toNat j hj symbol
    · intro hlt
      exact ⟨getD_set_self s position.toNat hlt symbol,
        occupiedCount_set s position.toNat hlt hemp symbol (symbol_ne_empty hsym)⟩

/-- C4 witness: a successful insertion of `X` at cell 4 of a board with an
occupied corner. -/
theorem c4_insert_contract_witness :
    Board.insert [CellValue.O, CellValue.Empty, CellValue.Empty, CellValue.Empty,
        CellValue.Empty, CellValue.Empty, CellValue.Empty, CellValue.Empty, CellValue.Empty]
      CellValue.X 4 =
      Except.ok (true,
        [CellValue.O, CellValue.Empty, CellValue.Empty, CellValue.Empty,
          CellValue.Empty, CellValue.Empty, CellValue.Empty, CellValue.Empty,
          CellValue.Empty].set 4 CellValue.X) :=
  ((c4_insert_contract
    [CellValue.O, CellValue.Empty, CellValue.Empty, CellValue.Empty, CellValue.Empty,
      CellValue.Empty, CellValue.Empty, CellValue.Empty, CellValue.Empty]
    CellValue.X 4).2.2.2 (by decide) (by decide) (Or.inr rfl) (by decide)).1

/-! ### Claim C6: `getAvailableMoves` -/

/-- C6: `getAvailableMoves` returns exactly the indices of `Empty` cells, in
strictly ascending order, the empty list on a full board, and its length plus
the occupied-cell count is 9. -/
theorem c6_available_moves (b : Board) (hlen : b.length = 9) :
    (∀ i : Nat, i ∈ Board.getAvailableMoves b ↔
      i < 9 ∧ b.getD i CellValue.Empty = CellValue.Empty) ∧
    List.Pairwise (· < ·) (Board.getAvailableMoves b) ∧
    (Board.isFullB b = true → Board.getAvailableMoves b = []) ∧
    (Board.getAvailableMoves b).length + occupiedCount b = 9 := by
  refine ⟨?_, pairwise_availableAux b 0, ?_, ?_⟩
  · intro i
    rw [mem_getAvailableMoves, hlen]
  · intro hfull
    have h0 : countEmpty b = 0 := (isFullB_iff_countEmpty b).mp hfull
    have hl := length_getAvailableMoves b
    rw [h0] at hl
    exact List.length_eq_zero.mp hl
  · have h1 := length_getAvailableMoves b
    have h2 := occupiedCount_add_countEmpty b
    omega

/-- C6 witness: a board with three empty cells. -/
theorem c6_available_moves_witness :
    (Board.getAvailableMoves [CellValue.X, CellValue.O, CellValue.Empty, CellValue.X,
      CellValue.Empty, CellValue.O, CellValue.X, CellValue.Empty, CellValue.O]).length +
      occupiedCount [CellValue.X, CellValue.O, CellValue.Empty, CellValue.X,
        CellValue.Empty, CellValue.O, CellValue.X, CellValue.Empty, CellValue.O] = 9 :=
  (c6_available_moves
    [CellValue.X, CellValue.O, CellValue.Empty, CellValue.X, CellValue.Empty,
      CellValue.O, CellValue.X, CellValue.Empty, CellValue.O] (by rfl)).2.2.2

/-! ### Claim C1: full boards are always reported as draws -/

/-- The full board X,X,X / O,O,X / O,X,O: a legal final position (5 X, 4 O)
in which X occupies the whole top row. -/
def fullXWinBoard : Board :=
  [CellValue.X, CellValue.X, CellValue.X,
   CellValue.O, CellValue.O, CellValue.X,
   CellValue.O, CellValue.X, CellValue.O]

/-- C1: the code contradicts the claim.  On the full board above, the top row
is a winning line (three equal non-`Empty` cells), yet `getFinishState` reports
`winner = DRAW` with no winning line: the `isFull` test precedes the
winning-line scan, so every full board is classified as a draw. -/
theorem c1_full_board_with_line_reported_draw :
    Board.isFullB fullXWinBoard = true ∧
    (Board.calculateGameState fullXWinBoard 0 1 2).finished = true ∧
    (Board.calculateGameState fullXWinBoard 0 1 2).winner = some (Winner.sym CellValue.X) ∧
    Board.getFinishState fullXWinBoard =
      { winnerPositions := none, winner := some Winner.draw, finished := true } := by
  decide

/-! ### Claim C8: forced win detection -/

def c8Board : Board :=
  [CellValue.X, CellValue.X, CellValue.Empty,
   CellValue.O, CellValue.O, CellValue.Empty,
   CellValue.Empty, CellValue.Empty, CellValue.Empty]

set_option maxRecDepth 16000 in
/-- C8: on the board X,X,_ / O,O,_ / _,_,_ with X to move, the root search
returns index 2 (completing the top row), and the score of that move is the
immediate-win value `100 - 1` detected one ply down. -/
theorem c8_forced_win :
    (Player.getBestMove (-1) [] c8Board true 0).1 = 2 ∧
    Player.childScore (-1) c8Board true 2 = 100 - 1 := by
  decide

/-! ### Claim C5: the first matching line wins -/

theorem find?_eq_getD_of_first {α : Type} (p : α → Bool) (d : α) :
    ∀ (L : List α) (k : Nat), k < L.length →
      (∀ j, j < k → p (L.getD j d) = false) →
      p (L.getD k d) = true →
      L.find? p = some (L.getD k d) := by
  intro L
  induction L with
  | nil => intro k hk; simp at hk
  | cons a rest ih =>
    intro k hk hlt hp
    cases k with
    | zero =>
      simp only [List.getD_cons_zero] at hp ⊢
      simp [List.find?, hp]
    | succ k' =>
      have ha : p a = false := hlt 0 (Nat.succ_pos k')
      simp only [List.getD_cons_succ] at hp ⊢
      simp only [List.find?, ha]
      exact ih k' (by simpa using hk) (fun j hj => by simpa using hlt (j + 1) (by omega)) hp

theorem getD_map_line (g : Nat × Nat × Nat → GameState) :
    ∀ (L : List (Nat × Nat × Nat)) (j : Nat),
      (L.map g).getD j (g (0, 0, 0)) = g (L.getD j (0, 0, 0)) := by
  intro L
  induction L with
  | nil => intro j; simp
  | cons a rest ih =>
    intro j
    cases j with
    | zero => simp
    | succ j' => simp only [List.map_cons, List.getD_cons_succ]; exact ih j'

theorem calculateGameState_finished (s : Board) (p1 p2 p3 : Nat)
    (h : (Board.calculateGameState s p1 p2 p3).finished = true) :
    Board.calculateGameState s p1 p2 p3 =
      { winnerPositions := some (p1, p2, p3),
        winner := some (Winner.sym (s.getD p1 CellValue.Empty)),
        finished := true } := by
  by_cases hc : s.getD p1 CellValue.Empty ≠ CellValue.Empty ∧
      s.getD p2 CellValue.Empty ≠ CellValue.Empty ∧
      s.getD p3 CellValue.Empty ≠ CellValue.Empty ∧
      s.getD p1 CellValue.Empty = s.getD p2 CellValue.Empty ∧
      s.getD p1 CellValue.Empty = s.getD p3 CellValue.Empty
  · simp only [Board.calculateGameState, if_pos hc]
  · simp only [Board.calculateGameState, if_neg hc] at h
    simp at h

/-- C5: on a non-empty, non-full board, when line `k` of the eight
`WINNER_POSITIONS` (rows, then columns, then diagonals) matches and no earlier
line does, `getFinishState` reports exactly line `k`: its triple as
`winnerPositions` and its first cell's symbol as `winner`. -/
theorem c5_first_matching_line (b : Board) (k : Nat) (hk : k < 8)
    (hne : Board.isEmptyB b = false) (hnf : Board.isFullB b = false)
    (hfirst : ∀ j, j < k →
      (Board.calculateGameState b (WINNER_POSITIONS.getD j (0, 0, 0)).1
        (WINNER_POSITIONS.getD j (0, 0, 0)).2.1
        (WINNER_POSITIONS.getD j (0, 0, 0)).2.2).finished = false)
    (hwin : (Board.calculateGameState b (WINNER_POSITIONS.getD k (0, 0, 0)).1
        (WINNER_POSITIONS.getD k (0, 0, 0)).2.1
        (WINNER_POSITIONS.getD k (0, 0, 0)).2.2).finished = true) :
    Board.getFinishState b =
      Board.calculateGameState b (WINNER_POSITIONS.getD k (0, 0, 0)).1
        (WINNER_POSITIONS.getD k (0, 0, 0)).2.1
        (WINNER_POSITIONS.getD k (0, 0, 0)).2.2 ∧
    (Board.getFinishState b).winnerPositions = some (WINNER_POSITIONS.getD k (0, 0, 0)) ∧
    (Board.getFinishState b).winner =
      some (Winner.sym (b.getD (WINNER_POSITIONS.getD k (0, 0, 0)).1 CellValue.Empty)) := by
  have hgd : ∀ j : Nat,
      ((WINNER_POSITIONS.map
        (fun t => Board.calculateGameState b t.1 t.2.1 t.2.2)).getD j
          (Board.calculateGameState b 0 0 0)) =
        Board.calculateGameState b (WINNER_POSITIONS.getD j (0, 0, 0)).1
          (WINNER_POSITIONS.getD j (0, 0, 0)).2.1 (WINNER_POSITIONS.getD j (0, 0, 0)).2.2 := by
    intro j
    exact getD_map_line (fun t => Board.calculateGameState b t.1 t.2.1 t.2.2) WINNER_POSITIONS j
  have hfind : (WINNER_POSITIONS.map
      (fun t => Board.calculateGameState b t.1 t.2.1 t.2.2)).find? (fun st => st.finished) =
      some (Board.calculateGameState b (WINNER_POSITIONS.getD k (0, 0, 0)).1
        (WINNER_POSITIONS.getD k (0, 0, 0)).2.1 (WINNER_POSITIONS.getD k (0, 0, 0)).2.2) := by
    have := find?_eq_getD_of_first (fun st => st.finished)
      (Board.calculateGameState b 0 0 0)
      (WINNER_POSITIONS.map (fun t => Board.calculateGameState b t.1 t.2.1 t.2.2)) k
      (by simpa [WINNER_POSITIONS] using hk)
      (fun j hj => by rw [hgd j]; exact hfirst j hj)
      (by rw [hgd k]; exact hwin)
    rw [hgd k] at this
    exact this
  have hmain : Board.getFinishState b =
      Board.calculateGameState b (WINNER_POSITIONS.getD k (0, 0, 0)).1
        (WINNER_POSITIONS.getD k (0, 0, 0)).2.1
        (WINNER_POSITIONS.getD k (0, 0, 0)).2.2 := by
    rw [Board.getFinishState, if_neg (by simp [hne]), if_neg (by simp [hnf]), hfind]
  refine ⟨hmain, ?_, ?_⟩ <;>
    rw [hmain, calculateGameState_finished b _ _ _ hwin]

/-- A board whose first matching line is the second row (line index 1): the
top row is examined first and does not match. -/
def c5Board : Board :=
  [CellValue.X, CellValue.X, CellValue.Empty,
   CellValue.O, CellValue.O, CellValue.O,
   CellValue.X, CellValue.Empty, CellValue.Empty]

/-- C5 witness: on `c5Board` the reported state is the middle row win of O. -/
theorem c5_first_matching_line_witness :
    Board.getFinishState c5Board = Board.calculateGameState c5Board 3 4 5 ∧
    (Board.getFinishState c5Board).winner = some (Winner.sym CellValue.O) := by
  have h := c5_first_matching_line c5Board 1 (by decide) (by decide) (by decide)
    (fun j hj => by
      have hj0 : j = 0 := by omega
      subst hj0
      decide)
    (by decide)
  exact ⟨h.1, h.2.2⟩

/-! ### Engine unfolding lemmas -/

theorem getBestMoveF_succ_terminal (fuel : Nat) (maxDepth : Int) (nm : NodesMap) (b : Board)
    (maximizing : Bool) (depth : Nat)
    (hcond : (Board.getFinishState b).finished = true ∨ (depth : Int) = maxDepth) :
    Player.getBestMoveF (fuel + 1) maxDepth nm b maximizing depth =
      (if (Board.getFinishState b).winner = some (Winner.sym CellValue.X) then
        (100 : Int) - depth
       else if (Board.getFinishState b).winner = some (Winner.sym CellValue.O) then
        (-100 : Int) + depth
       else 0,
       if depth = 0 then ([] : NodesMap) else nm, []) := by
  simp only [Player.getBestMoveF, if_pos hcond]

theorem getBestMoveF_succ_recurse (fuel : Nat) (maxDepth : Int) (nm : NodesMap) (b : Board)
    (maximizing : Bool) (depth : Nat)
    (hcond : ¬ ((Board.getFinishState b).finished = true ∨ (depth : Int) = maxDepth)) :
    Player.getBestMoveF (fuel + 1) maxDepth nm b maximizing depth =
      (let res := (Board.getAvailableMoves b).foldl
        (Player.minimaxStep
          (fun nm' next => Player.getBestMoveF fuel maxDepth nm' next (!maximizing) (depth + 1))
          b (if maximizing then CellValue.X else CellValue.O) maximizing depth)
        (if maximizing then (-100 : Int) else 100,
          if depth = 0 then ([] : NodesMap) else nm, ([] : List Int))
       if depth = 0 then
        let rc := getBestMoveAndExecuteCallback res.2.1 res.1
        (rc.1, res.2.1, res.2.2 ++ rc.2)
       else
        res) := by
  simp only [Player.getBestMoveF, if_neg hcond]

/-! ### Claim C9: the root call starts from a clean tally -/

/-- C9: the first thing a `depth == 0` call does is clear `nodesMap`, so a
top-level call on a `Player` carrying any leftover tally `nm` returns exactly
what the same call on a freshly constructed `Player` (empty tally) returns. -/
theorem c9_clean_tally (maxDepth : Int) (nm : NodesMap) (b : Board) (maximizing : Bool) :
    Player.getBestMove maxDepth nm b maximizing 0 =
      Player.getBestMove maxDepth [] b maximizing 0 := by
  rw [Player.getBestMove, Player.getBestMove]
  by_cases hcond : (Board.getFinishState b).finished = true ∨ ((0 : Nat) : Int) = maxDepth
  · rw [getBestMoveF_succ_terminal _ _ _ _ _ _ hcond,
      getBestMoveF_succ_terminal _ _ _ _ _ _ hcond]
    simp
  · rw [getBestMoveF_succ_recurse _ _ _ _ _ _ hcond,
      getBestMoveF_succ_recurse _ _ _ _ _ _ hcond]
    simp

/-! ### Claim C2: leaf scores -/

/-- C2: whenever the terminal check fires (`finished`, or the depth cap
`depth === maxDepth` on a non-terminal board), the call returns `100 - depth`
if the reported winner is X, `-100 + depth` if it is O, and `0` for a reported
draw or no winner (depth cap). -/
theorem c2_leaf_score (maxDepth : Int) (nm : NodesMap) (b : Board) (maximizing : Bool)
    (depth : Nat)
    (hterm : (Board.getFinishState b).finished = true ∨
      ((Board.getFinishState b).finished = false ∧ (depth : Int) = maxDepth)) :
    ((Board.getFinishState b).winner = some (Winner.sym CellValue.X) →
      (Player.getBestMove maxDepth nm b maximizing depth).1 = 100 - depth) ∧
    ((Board.getFinishState b).winner = some (Winner.sym CellValue.O) →
      (Player.getBestMove maxDepth nm b maximizing depth).1 = -100 + depth) ∧
    (((Board.getFinishState b).winner = some Winner.draw ∨
      (Board.getFinishState b).winner = none) →
      (Player.getBestMove maxDepth nm b maximizing depth).1 = 0) := by
  have hcond : (Board.getFinishState b).finished = true ∨ (depth : Int) = maxDepth := by
    tauto
  rw [Player.getBestMove, getBestMoveF_succ_terminal _ _ _ _ _ _ hcond]
  refine ⟨?_, ?_, ?_⟩
  · intro hw
    simp [hw]
  · intro hw
    simp [hw]
  · rintro (hw | hw) <;> simp [hw]

/-- C2 witness: the non-full board X,X,X / O,O,_ / _,_,_ reached at ply 3 is
scored `100 - 3 = 97`. -/
theorem c2_leaf_score_witness :
    (Player.getBestMove (-1)
      [] [CellValue.X, CellValue.X, CellValue.X, CellValue.O, CellValue.O, CellValue.Empty,
        CellValue.Empty, CellValue.Empty, CellValue.Empty] true 3).1 = 100 - 3 :=
  (c2_leaf_score (-1)
    [] [CellValue.X, CellValue.X, CellValue.X, CellValue.O, CellValue.O, CellValue.Empty,
      CellValue.Empty, CellValue.Empty, CellValue.Empty] true 3
    (Or.inl (by decide))).1 (by decide)

/-! ### NodesMap lemmas -/

theorem find?_append_none {α : Type} (p : α → Bool) :
    ∀ l₁ l₂ : List α, l₁.find? p = none → (l₁ ++ l₂).find? p = l₂.find? p := by
  intro l₁
  induction l₁ with
  | nil => intro l₂ _; rfl
  | cons a rest ih =>
    intro l₂ h
    cases hpa : p a with
    | true => rw [List.find?_cons_of_pos rest hpa] at h; simp at h
    | false =>
      rw [List.find?_cons_of_neg rest (by simp [hpa])] at h
      rw [List.cons_append, List.find?_cons_of_neg _ (by simp [hpa])]
      exact ih l₂ h

theorem find?_append_some {α : Type} (p : α → Bool) :
    ∀ (l₁ l₂ : List α) (x : α), l₁.find? p = some x → (l₁ ++ l₂).find? p = some x := by
  intro l₁
  induction l₁ with
  | nil => intro l₂ x h; simp at h
  | cons a rest ih =>
    intro l₂ x h
    cases hpa : p a with
    | true =>
      rw [List.find?_cons_of_pos rest hpa] at h
      rw [List.cons_append, List.find?_cons_of_pos _ hpa]
      exact h
    | false =>
      rw [List.find?_cons_of_neg rest (by simp [hpa])] at h
      rw [List.cons_append, List.find?_cons_of_neg _ (by simp [hpa])]
      exact ih l₂ x h

theorem find?_map_upd (k : Int) (v : List Nat) :
    ∀ m : NodesMap, m.any (fun p => p.1 == k) = true →
      (m.map (fun p => if p.1 == k then (k, v) else p)).find? (fun p => p.1 == k) =
        some (k, v) := by
  intro m
  induction m with
  | nil => intro h; simp at h
  | cons p rest ih =>
    intro h
    cases hp : (p.1 == k) with
    | true =>
      simp only [List.map_cons, hp, if_true]
      exact List.find?_cons_of_pos _ (by simp)
    | false =>
      simp only [List.map_cons, hp, if_false]
      rw [List.find?_cons_of_neg _ (by simp [hp])]
      apply ih
      simp only [List.any_cons, hp, Bool.false_or] at h
      exact h

theorem find?_map_upd_ne (k k' : Int) (hk : ¬ k' = k) (v : List Nat) :
    ∀ m : NodesMap,
      (m.map (fun p => if p.1 == k then (k, v) else p)).find? (fun p => p.1 == k') =
        m.find? (fun p => p.1 == k') := by
  have hk2 : ¬ k = k' := fun h => hk h.symm
  intro m
  induction m with
  | nil => rfl
  | cons p rest ih =>
    by_cases hp : p.1 = k
    · have hb : (p.1 == k) = true := by simpa using hp
      simp only [List.map_cons]
      rw [if_pos hb, List.find?_cons_of_neg _ (by simpa using hk2),
        List.find?_cons_of_neg _ (by simpa [hp] using hk2)]
      exact ih
    · have hb : (p.1 == k) = false := by simpa using hp
      simp only [List.map_cons]
      rw [if_neg (by simp [hb])]
      by_cases hp' : p.1 = k'
      · have hb' : (p.1 == k') = true := by simpa using hp'
        simp only [List.find?, hb']
      · have hb' : (p.1 == k') = false := by simpa using hp'
        simp only [List.find?, hb']
        exact ih

theorem getBucket_setBucket_self (m : NodesMap) (k : Int) (v : List Nat) :
    NodesMap.getBucket (NodesMap.setBucket m k v) k = some v := by
  rw [NodesMap.setBucket]
  by_cases h : m.any (fun p => p.1 == k) = true
  · rw [if_pos h, NodesMap.getBucket, find?_map_upd k v m h]
    rfl
  · rw [if_neg h, NodesMap.getBucket]
    have hnone : m.find? (fun p => p.1 == k) = none := by
      rw [List.find?_eq_none]
      intro x hx hpx
      exact h (List.any_eq_true.mpr ⟨x, hx, hpx⟩)
    rw [find?_append_none _ m [(k, v)] hnone]
    simp [List.find?]

theorem getBucket_setBucket_ne (m : NodesMap) (k k' : Int) (hk : ¬ k' = k) (v : List Nat) :
    NodesMap.getBucket (NodesMap.setBucket m k v) k' = NodesMap.getBucket m k' := by
  rw [NodesMap.setBucket]
  by_cases h : m.any (fun p => p.1 == k) = true
  · rw [if_pos h, NodesMap.getBucket, find?_map_upd_ne k k' hk v m, NodesMap.getBucket]
  · rw [if_neg h, NodesMap.getBucket, NodesMap.getBucket]
    cases hf : m.find? (fun p => p.1 == k') with
    | some x => rw [find?_append_some _ m [(k, v)] x hf]
    | none =>
      rw [find?_append_none _ m [(k, v)] hf]
      have hkk : (k == k') = false := by
        simp only [beq_eq_false_iff_ne, ne_eq]
        exact fun h => hk h.symm
      simp [List.find?, hkk]

/-- The tally after recording, in order, one (move index, score) pair per root
move: each index is appended to the bucket keyed by its score. -/
def tallyFold : NodesMap → List (Nat × Int) → NodesMap
  | m, [] => m
  | m, p :: rest =>
    tallyFold (NodesMap.setBucket m p.2 ((NodesMap.getBucket m p.2).getD [] ++ [p.1])) rest

theorem getBucket_tallyFold :
    ∀ (pairs : List (Nat × Int)) (m : NodesMap) (v : Int),
      NodesMap.getBucket (tallyFold m pairs) v =
        (if ((pairs.filter (fun p => p.2 == v)).map Prod.fst) = [] then NodesMap.getBucket m v
         else some ((NodesMap.getBucket m v).getD [] ++
           (pairs.filter (fun p => p.2 == v)).map Prod.fst)) := by
  intro pairs
  induction pairs with
  | nil => intro m v; simp [tallyFold]
  | cons p rest ih =>
    intro m v
    rw [tallyFold]
    by_cases hv : p.2 = v
    · subst hv
      rw [ih, List.filter_cons_of_pos (by simp), List.map_cons]
      rw [getBucket_setBucket_self m p.2 ((NodesMap.getBucket m p.2).getD [] ++ [p.1])]
      by_cases hrest : ((rest.filter (fun q => q.2 == p.2)).map Prod.fst) = []
      · rw [if_pos hrest, hrest, if_neg (by simp)]
      · rw [if_neg hrest, if_neg (by simp)]
        simp
    · have hb : (p.2 == v) = false := by simpa using hv
      have hne : ¬ v = p.2 := fun h => hv h.symm
      rw [ih, List.filter_cons_of_neg (by simp [hb])]
      rw [getBucket_setBucket_ne m p.2 v hne ((NodesMap.getBucket m p.2).getD [] ++ [p.1])]

/-! ### Fold characterization of the minimax loop -/

theorem foldl_minimaxStep_nonroot
    (eval : NodesMap → Board → Int × NodesMap × List Int)
    (board : Board) (cellValue : CellValue) (maximizing : Bool) (depth : Nat)
    (hd : ¬ depth = 0)
    (H : ∀ (nm : NodesMap) (b' : Board), eval nm b' = ((eval [] b').1, nm, [])) :
    ∀ (ms : List Nat) (x : Int) (nm : NodesMap) (l : List Int),
      ms.foldl (Player.minimaxStep eval board cellValue maximizing depth) (x, nm, l) =
        (ms.foldl (fun (a : Int) (i : Nat) =>
            if maximizing then max a (eval [] (Board.insertApply board cellValue (i : Int))).1
            else min a (eval [] (Board.insertApply board cellValue (i : Int))).1) x,
          nm, l) := by
  intro ms
  induction ms with
  | nil => intro x nm l; rfl
  | cons i rest ih =>
    intro x nm l
    have hstep : Player.minimaxStep eval board cellValue maximizing depth (x, nm, l) i =
        (if maximizing then max x (eval [] (Board.insertApply board cellValue (i : Int))).1
         else min x (eval [] (Board.insertApply board cellValue (i : Int))).1, nm, l) := by
      simp [Player.minimaxStep, H nm (Board.insertApply board cellValue (i : Int)), hd]
    rw [List.foldl_cons, hstep, ih, List.foldl_cons]

theorem foldl_minimaxStep_root
    (eval : NodesMap → Board → Int × NodesMap × List Int)
    (board : Board) (cellValue : CellValue) (maximizing : Bool)
    (H : ∀ (nm : NodesMap) (b' : Board), eval nm b' = ((eval [] b').1, nm, [])) :
    ∀ (ms : List Nat) (x : Int) (nm : NodesMap) (l : List Int),
      ms.foldl (Player.minimaxStep eval board cellValue maximizing 0) (x, nm, l) =
        (ms.foldl (fun (a : Int) (i : Nat) =>
            if maximizing then max a (eval [] (Board.insertApply board cellValue (i : Int))).1
            else min a (eval [] (Board.insertApply board cellValue (i : Int))).1) x,
          tallyFold nm (ms.map (fun (i : Nat) =>
            (i, (eval [] (Board.insertApply board cellValue (i : Int))).1))),
          l) := by
  intro ms
  induction ms with
  | nil => intro x nm l; rfl
  | cons i rest ih =>
    intro x nm l
    have hstep : Player.minimaxStep eval board cellValue maximizing 0 (x, nm, l) i =
        (if maximizing then max x (eval [] (Board.insertApply board cellValue (i : Int))).1
         else min x (eval [] (Board.insertApply board cellValue (i : Int))).1,
         NodesMap.setBucket nm (eval [] (Board.insertApply board cellValue (i : Int))).1
           ((NodesMap.getBucket nm
             (eval [] (Board.insertApply board cellValue (i : Int))).1).getD [] ++ [i]),
         l) := by
      simp [Player.minimaxStep, H nm (Board.insertApply board cellValue (i : Int))]
    rw [List.foldl_cons, hstep, ih, List.foldl_cons, List.map_cons, tallyFold]

/-! ### Non-root calls neither read nor write the tally, and never invoke the
callback -/

theorem getBestMoveF_nonroot (fuel : Nat) :
    ∀ (maxDepth : Int) (nm : NodesMap) (b : Board) (maximizing : Bool) (depth : Nat),
      ¬ depth = 0 →
      Player.getBestMoveF fuel maxDepth nm b maximizing depth =
        ((Player.getBestMoveF fuel maxDepth [] b maximizing depth).1, nm, []) := by
  induction fuel with
  | zero => intro maxDepth nm b maximizing depth hd; rfl
  | succ fuel ih =>
    intro maxDepth nm b maximizing depth hd
    by_cases hcond : (Board.getFinishState b).finished = true ∨ (depth : Int) = maxDepth
    · rw [getBestMoveF_succ_terminal _ _ _ _ _ _ hcond,
        getBestMoveF_succ_terminal _ _ _ _ _ _ hcond]
      simp [hd]
    · rw [getBestMoveF_succ_recurse _ _ _ _ _ _ hcond,
        getBestMoveF_succ_recurse _ _ _ _ _ _ hcond]
      have H : ∀ (nm' : NodesMap) (b' : Board),
          Player.getBestMoveF fuel maxDepth nm' b' (!maximizing) (depth + 1) =
            ((Player.getBestMoveF fuel maxDepth [] b' (!maximizing) (depth + 1)).1, nm', []) :=
        fun nm' b' => ih maxDepth nm' b' (!maximizing) (depth + 1) (by omega)
      simp only [if_neg hd]
      rw [foldl_minimaxStep_nonroot _ b _ maximizing depth hd H,
        foldl_minimaxStep_nonroot _ b _ maximizing depth hd H]

/-! ### Root call characterization -/

theorem getBestMoveF_succ_root (fuel : Nat) (maxDepth : Int) (nm : NodesMap) (b : Board)
    (maximizing : Bool)
    (hcond : ¬ ((Board.getFinishState b).finished = true ∨ ((0 : Nat) : Int) = maxDepth)) :
    Player.getBestMoveF (fuel + 1) maxDepth nm b maximizing 0 =
      (let res := (Board.getAvailableMoves b).foldl
        (Player.minimaxStep
          (fun nm' next => Player.getBestMoveF fuel maxDepth nm' next (!maximizing) 1)
          b (if maximizing then CellValue.X else CellValue.O) maximizing 0)
        (if maximizing then (-100 : Int) else 100, ([] : NodesMap), ([] : List Int))
       let rc := getBestMoveAndExecuteCallback res.2.1 res.1
       (rc.1, res.2.1, res.2.2 ++ rc.2)) := by
  rw [getBestMoveF_succ_recurse _ _ _ _ _ _ hcond]
  simp

theorem getBestMoveF_root_char (fuel : Nat) (maxDepth : Int) (nm : NodesMap) (b : Board)
    (maximizing : Bool)
    (hcond : ¬ ((Board.getFinishState b).finished = true ∨ ((0 : Nat) : Int) = maxDepth)) :
    Player.getBestMoveF (fuel + 1) maxDepth nm b maximizing 0 =
      (let val : Nat → Int := fun i => (Player.getBestMoveF fuel maxDepth []
          (Board.insertApply b (if maximizing then CellValue.X else CellValue.O) (i : Int))
          (!maximizing) 1).1
       let best := (Board.getAvailableMoves b).foldl
         (fun (a : Int) (i : Nat) => if maximizing then max a (val i) else min a (val i))
         (if maximizing then (-100 : Int) else 100)
       let tally := tallyFold [] ((Board.getAvailableMoves b).map (fun (i : Nat) => (i, val i)))
       let rv := (getBestMoveAndExecuteCallback tally best).1
       (rv, tally, [rv])) := by
  rw [getBestMoveF_succ_root fuel maxDepth nm b maximizing hcond]
  have H : ∀ (nm' : NodesMap) (b' : Board),
      Player.getBestMoveF fuel maxDepth nm' b' (!maximizing) 1 =
        ((Player.getBestMoveF fuel maxDepth [] b' (!maximizing) 1).1, nm', []) :=
    fun nm' b' => getBestMoveF_nonroot fuel maxDepth nm' b' (!maximizing) 1 (by omega)
  rw [foldl_minimaxStep_root _ b _ maximizing H (Board.getAvailableMoves b)
    (if maximizing then (-100 : Int) else 100) [] []]
  rfl

/-! ### Claim C7: the callback -/

/-- A board that is already finished (X won the top row) when handed to the
root call. -/
def c7Board : Board :=
  [CellValue.X, CellValue.X, CellValue.X,
   CellValue.O, CellValue.O, CellValue.Empty,
   CellValue.Empty, CellValue.Empty, CellValue.Empty]

/-- C7 is false as stated: on a board whose terminal check fires at the root,
`getBestMove` returns the leaf score (here `100`) without ever invoking the
callback — the invocation log is empty, not a single invocation. -/
theorem c7_callback_counterexample :
    (Player.getBestMove (-1) [] c7Board true 0).2.2 = [] ∧
    ¬ ((Player.getBestMove (-1) [] c7Board true 0).2.2).length = 1 ∧
    (Player.getBestMove (-1) [] c7Board true 0).1 = 100 := by
  decide

/-- C7 (amended): whenever the root terminal check does not fire (the board is
not finished and the configured `maxDepth` is not 0), the callback is invoked
exactly once, with the chosen move index, and the root call returns that same
index. -/
theorem c7_callback_once_amended (maxDepth : Int) (nm : NodesMap) (b : Board)
    (maximizing : Bool)
    (hnf : (Board.getFinishState b).finished = false) (hmd : ¬ maxDepth = 0) :
    (Player.getBestMove maxDepth nm b maximizing 0).2.2 =
      [(Player.getBestMove maxDepth nm b maximizing 0).1] := by
  have hcond : ¬ ((Board.getFinishState b).finished = true ∨ ((0 : Nat) : Int) = maxDepth) := by
    rintro (h | h)
    · rw [hnf] at h; exact absurd h (by simp)
    · exact hmd (by omega)
  rw [Player.getBestMove, getBestMoveF_root_char (countEmpty b) maxDepth nm b maximizing hcond]

/-- A non-terminal board with a single empty cell (no winning line present). -/
def c7WitnessBoard : Board :=
  [CellValue.X, CellValue.O, CellValue.X,
   CellValue.X, CellValue.O, CellValue.O,
   CellValue.O, CellValue.Empty, CellValue.X]

/-- C7 witness: on the non-terminal `c7WitnessBoard` the callback log is
exactly the returned index. -/
theorem c7_callback_once_amended_witness :
    (Player.getBestMove (-1) [] c7WitnessBoard true 0).2.2 =
      [(Player.getBestMove (-1) [] c7WitnessBoard true 0).1] :=
  c7_callback_once_amended (-1) [] c7WitnessBoard true (by decide) (by decide)

/-! ### Bounds on search values -/

theorem le_foldl_max (l : List Int) : ∀ x : Int, x ≤ l.foldl max x := by
  induction l with
  | nil => intro x; exact le_refl x
  | cons v rest ih => intro x; exact le_trans (le_max_left x v) (ih (max x v))

theorem mem_le_foldl_max (l : List Int) : ∀ (x v : Int), v ∈ l → v ≤ l.foldl max x := by
  induction l with
  | nil => intro x v h; simp at h
  | cons u rest ih =>
    intro x v h
    rcases List.mem_cons.mp h with rfl | h'
    · exact le_trans (le_max_right x v) (le_foldl_max rest (max x v))
    · exact ih (max x u) v h'

theorem foldl_max_le (l : List Int) : ∀ (x hi : Int), x ≤ hi → (∀ v ∈ l, v ≤ hi) →
    l.foldl max x ≤ hi := by
  induction l with
  | nil => intro x hi hx _; exact hx
  | cons v rest ih =>
    intro x hi hx h
    exact ih (max x v) hi (max_le hx (h v (List.mem_cons_self v rest)))
      (fun u hu => h u (List.mem_cons_of_mem v hu))

theorem foldl_max_eq_or_mem (l : List Int) :
    ∀ x : Int, l.foldl max x = x ∨ l.foldl max x ∈ l := by
  induction l with
  | nil => intro x; left; rfl
  | cons v rest ih =>
    intro x
    rcases ih (max x v) with h | h
    · rcases max_choice x v with hm | hm
      · left; rw [List.foldl_cons, h, hm]
      · right; rw [List.foldl_cons, h, hm]; exact List.mem_cons_self v rest
    · right; exact List.mem_cons_of_mem v h

theorem foldl_min_le (l : List Int) : ∀ x : Int, l.foldl min x ≤ x := by
  induction l with
  | nil => intro x; exact le_refl x
  | cons v rest ih => intro x; exact le_trans (ih (min x v)) (min_le_left x v)

theorem foldl_min_le_mem (l : List Int) : ∀ (x v : Int), v ∈ l → l.foldl min x ≤ v := by
  induction l with
  | nil => intro x v h; simp at h
  | cons u rest ih =>
    intro x v h
    rcases List.mem_cons.mp h with rfl | h'
    · exact le_trans (foldl_min_le rest (min x v)) (min_le_right x v)
    · exact ih (min x u) v h'

theorem le_foldl_min (l : List Int) : ∀ (x lo : Int), lo ≤ x → (∀ v ∈ l, lo ≤ v) →
    lo ≤ l.foldl min x := by
  induction l with
  | nil => intro x lo hx _; exact hx
  | cons v rest ih =>
    intro x lo hx h
    exact ih (min x v) lo (le_min hx (h v (List.mem_cons_self v rest)))
      (fun u hu => h u (List.mem_cons_of_mem v hu))

theorem foldl_min_eq_or_mem (l : List Int) :
    ∀ x : Int, l.foldl min x = x ∨ l.foldl min x ∈ l := by
  induction l with
  | nil => intro x; left; rfl
  | cons v rest ih =>
    intro x
    rcases ih (min x v) with h | h
    · rcases min_choice x v with hm | hm
      · left; rw [List.foldl_cons, h, hm]
      · right; rw [List.foldl_cons, h, hm]; exact List.mem_cons_self v rest
    · right; exact List.mem_cons_of_mem v h

theorem cellOf_or (maximizing : Bool) :
    (if maximizing then CellValue.X else CellValue.O) = CellValue.O ∨
      (if maximizing then CellValue.X else CellValue.O) = CellValue.X := by
  cases maximizing <;> simp

theorem moves_ne_nil (b : Board) (hce : 1 ≤ countEmpty b) :
    Board.getAvailableMoves b ≠ [] := by
  intro h
  have := length_getAvailableMoves b
  rw [h] at this
  simp at this
  omega

theorem foldl_opif_eq (maximizing : Bool) (val : Nat → Int) :
    ∀ (ms : List Nat) (x : Int),
      ms.foldl (fun (a : Int) (i : Nat) =>
          if maximizing then max a (val i) else min a (val i)) x =
        (if maximizing then (ms.map val).foldl max x else (ms.map val).foldl min x) := by
  intro ms
  induction ms with
  | nil => intro x; cases maximizing <;> rfl
  | cons i rest ih =>
    intro x
    cases maximizing <;> simp [List.foldl_cons, List.map_cons] at ih ⊢ <;> rw [ih]

theorem getBestMoveF_bounds (fuel : Nat) :
    ∀ (maxDepth : Int) (nm : NodesMap) (b : Board) (maximizing : Bool) (depth : Nat),
      countEmpty b < fuel → b.length = 9 → 1 ≤ depth → depth + countEmpty b ≤ 9 →
      -99 ≤ (Player.getBestMoveF fuel maxDepth nm b maximizing depth).1 ∧
      (Player.getBestMoveF fuel maxDepth nm b maximizing depth).1 ≤ 99 := by
  induction fuel with
  | zero => intro _ _ b _ _ hf; omega
  | succ fuel ih =>
    intro maxDepth nm b maximizing depth hf hlen hd1 hd9
    by_cases hcond : (Board.getFinishState b).finished = true ∨ (depth : Int) = maxDepth
    · rw [getBestMoveF_succ_terminal _ _ _ _ _ _ hcond]
      dsimp only
      constructor <;> (split_ifs <;> omega)
    · have hnf : (Board.getFinishState b).finished = false := by
        cases h : (Board.getFinishState b).finished
        · rfl
        · exact absurd (Or.inl h) hcond
      have hce : 1 ≤ countEmpty b := countEmpty_pos_of_not_finished b hlen hnf
      have hd : ¬ depth = 0 := by omega
      rw [getBestMoveF_succ_recurse _ _ _ _ _ _ hcond]
      have H : ∀ (nm' : NodesMap) (b' : Board),
          Player.getBestMoveF fuel maxDepth nm' b' (!maximizing) (depth + 1) =
            ((Player.getBestMoveF fuel maxDepth [] b' (!maximizing) (depth + 1)).1, nm', []) :=
        fun nm' b' => getBestMoveF_nonroot fuel maxDepth nm' b' (!maximizing) (depth + 1)
          (by omega)
      simp only [if_neg hd]
      rw [foldl_minimaxStep_nonroot _ b _ maximizing depth hd H]
      dsimp only
      rw [foldl_opif_eq maximizing _ (Board.getAvailableMoves b)
        (if maximizing then (-100 : Int) else 100)]
      have hchild : ∀ v ∈ (Board.getAvailableMoves b).map (fun (i : Nat) =>
          (Player.getBestMoveF fuel maxDepth []
            (Board.insertApply b (if maximizing then CellValue.X else CellValue.O) (i : Int))
            (!maximizing) (depth + 1)).1), -99 ≤ v ∧ v ≤ 99 := by
        intro v hv
        rcases List.mem_map.mp hv with ⟨i, hi, rfl⟩
        have hce' := countEmpty_insertApply b (if maximizing then CellValue.X else CellValue.O)
          i hlen (cellOf_or maximizing) hi
        have hlen' : (Board.insertApply b
            (if maximizing then CellValue.X else CellValue.O) (i : Int)).length = 9 := by
          rw [insertApply_length]; exact hlen
        exact ih maxDepth [] _ (!maximizing) (depth + 1) (by omega) hlen' (by omega) (by omega)
      have hne : (Board.getAvailableMoves b).map (fun (i : Nat) =>
          (Player.getBestMoveF fuel maxDepth []
            (Board.insertApply b (if maximizing then CellValue.X else CellValue.O) (i : Int))
            (!maximizing) (depth + 1)).1) ≠ [] := by
        intro h
        exact moves_ne_nil b hce (List.map_eq_nil_iff.mp h)
      obtain ⟨v0, hv0⟩ := List.exists_mem_of_ne_nil _ hne
      cases maximizing with
      | true =>
        simp only [reduceIte] at hchild hne hv0 ⊢
        constructor
        · exact le_trans (hchild v0 hv0).1 (mem_le_foldl_max _ _ v0 hv0)
        · exact foldl_max_le _ _ 99 (by omega) (fun v hv => (hchild v hv).2)
      | false =>
        simp only [Bool.false_eq_true, if_false] at hchild hne hv0 ⊢
        constructor
        · exact le_foldl_min _ _ _ (by omega) (fun v hv => (hchild v hv).1)
        · exact le_trans (foldl_min_le_mem _ _ v0 hv0) (hchild v0 hv0).2

/-! ### Claim C3: the root returns the first (lowest) best-scoring index -/

theorem filter_map_pair (val : Nat → Int) (best : Int) :
    ∀ ms : List Nat,
      ((ms.map (fun (i : Nat) => (i, val i))).filter (fun p => p.2 == best)).map Prod.fst =
        ms.filter (fun i => val i == best) := by
  intro ms
  induction ms with
  | nil => rfl
  | cons i rest ih =>
    simp only [List.map_cons]
    by_cases h : (val i == best) = true
    · rw [List.filter_cons_of_pos (by exact h), List.filter_cons_of_pos (by exact h),
        List.map_cons, ih]
    · rw [List.filter_cons_of_neg (by simpa using h), List.filter_cons_of_neg (by simpa using h),
        ih]

theorem filter_head_least (p : Nat → Bool) :
    ∀ ms : List Nat, List.Pairwise (· < ·) ms →
      ∀ (i : Nat) (rest : List Nat), ms.filter p = i :: rest →
        i ∈ ms ∧ p i = true ∧ ∀ j ∈ ms, p j = true → i ≤ j := by
  intro ms
  induction ms with
  | nil => intro _ i rest h; simp at h
  | cons a tail ih =>
    intro hpw i rest h
    by_cases hpa : p a = true
    · rw [List.filter_cons_of_pos (by exact hpa)] at h
      injection h with h1 h2
      subst h1
      refine ⟨List.mem_cons_self _ _, hpa, ?_⟩
      intro j hj hpj
      rcases List.mem_cons.mp hj with rfl | hj'
      · exact le_refl j
      · exact Nat.le_of_lt ((List.pairwise_cons.mp hpw).1 j hj')
    · rw [List.filter_cons_of_neg (by simpa using hpa)] at h
      obtain ⟨h1, h2, h3⟩ := ih (List.pairwise_cons.mp hpw).2 i rest h
      refine ⟨List.mem_cons_of_mem a h1, h2, ?_⟩
      intro j hj hpj
      rcases List.mem_cons.mp hj with rfl | hj'
      · exact absurd hpj hpa
      · exact h3 j hj' hpj

theorem root_pick_least (val : Nat → Int) (ms : List Nat)
    (hpw : List.Pairwise (· < ·) ms) (maximizing : Bool)
    (hbmem : (if maximizing then (ms.map val).foldl max (-100) else
        (ms.map val).foldl min 100) ∈ ms.map val) :
    ∃ i : Nat,
      (getBestMoveAndExecuteCallback (tallyFold [] (ms.map (fun (i : Nat) => (i, val i))))
        (ms.foldl (fun (a : Int) (i : Nat) =>
          if maximizing then max a (val i) else min a (val i))
          (if maximizing then (-100 : Int) else 100))).1 = (i : Int) ∧
      i ∈ ms ∧
      val i = (if maximizing then (ms.map val).foldl max (-100) else
        (ms.map val).foldl min 100) ∧
      ∀ j ∈ ms, val j = (if maximizing then (ms.map val).foldl max (-100) else
        (ms.map val).foldl min 100) → i ≤ j := by
  rw [foldl_opif_eq maximizing val ms (if maximizing then (-100 : Int) else 100)]
  cases maximizing with
  | true =>
    simp only [reduceIte] at hbmem ⊢
    obtain ⟨i1, hi1, hvi1⟩ := List.mem_map.mp hbmem
    have hne : ms.filter (fun i => val i == (ms.map val).foldl max (-100)) ≠ [] := by
      intro hfl
      have : i1 ∈ ms.filter (fun i => val i == (ms.map val).foldl max (-100)) :=
        List.mem_filter.mpr ⟨hi1, by simp [hvi1]⟩
      rw [hfl] at this
      simp at this
    cases hfl : ms.filter (fun i => val i == (ms.map val).foldl max (-100)) with
    | nil => exact absurd hfl hne
    | cons i0 rest' =>
      have hgb : NodesMap.getBucket
          (tallyFold [] (ms.map (fun (i : Nat) => (i, val i))))
          ((ms.map val).foldl max (-100)) = some (i0 :: rest') := by
        rw [getBucket_tallyFold (ms.map (fun (i : Nat) => (i, val i))) []
          ((ms.map val).foldl max (-100)), filter_map_pair, hfl]
        rw [if_neg (by simp)]
        simp [NodesMap.getBucket]
      obtain ⟨hmem0, hp0, hleast0⟩ :=
        filter_head_least (fun i => val i == (ms.map val).foldl max (-100)) ms hpw i0 rest' hfl
      refine ⟨i0, ?_, hmem0, by simpa using hp0, fun j hj hvj => hleast0 j hj (by simp [hvj])⟩
      simp only [getBestMoveAndExecuteCallback, hgb]
  | false =>
    simp only [Bool.false_eq_true, if_false] at hbmem ⊢
    obtain ⟨i1, hi1, hvi1⟩ := List.mem_map.mp hbmem
    have hne : ms.filter (fun i => val i == (ms.map val).foldl min 100) ≠ [] := by
      intro hfl
      have : i1 ∈ ms.filter (fun i => val i == (ms.map val).foldl min 100) :=
        List.mem_filter.mpr ⟨hi1, by simp [hvi1]⟩
      rw [hfl] at this
      simp at this
    cases hfl : ms.filter (fun i => val i == (ms.map val).foldl min 100) with
    | nil => exact absurd hfl hne
    | cons i0 rest' =>
      have hgb : NodesMap.getBucket
          (tallyFold [] (ms.map (fun (i : Nat) => (i, val i))))
          ((ms.map val).foldl min 100) = some (i0 :: rest') := by
        rw [getBucket_tallyFold (ms.map (fun (i : Nat) => (i, val i))) []
          ((ms.map val).foldl min 100), filter_map_pair, hfl]
        rw [if_neg (by simp)]
        simp [NodesMap.getBucket]
      obtain ⟨hmem0, hp0, hleast0⟩ :=
        filter_head_least (fun i => val i == (ms.map val).foldl min 100) ms hpw i0 rest' hfl
      refine ⟨i0, ?_, hmem0, by simpa using hp0, fun j hj hvj => hleast0 j hj (by simp [hvj])⟩
      simp only [getBestMoveAndExecuteCallback, hgb]

theorem val_eq_childScoreAt (maxDepth : Int) (b : Board) (maximizing : Bool) (depth : Nat)
    (hlen : b.length = 9) :
    ∀ i ∈ Board.getAvailableMoves b,
      (Player.getBestMoveF (countEmpty b) maxDepth []
        (Board.insertApply b (if maximizing then CellValue.X else CellValue.O) (i : Int))
        (!maximizing) (depth + 1)).1 =
      Player.childScoreAt maxDepth b maximizing depth i := by
  intro i hi
  have h := countEmpty_insertApply b (if maximizing then CellValue.X else CellValue.O) i hlen
    (cellOf_or maximizing) hi
  rw [Player.childScoreAt, Player.getBestMove, h]

/-- C3: on a non-terminal board (with the depth cap not set to 0), the root
call returns the move index that is the FIRST entry of the tally bucket keyed
by the final best score, which is the lowest available index whose child score
equals the best score — a deterministic tie-break; and every non-root call
returns only the numeric best score (a triple whose tally is passed through
untouched and whose callback log is empty). -/
theorem c3_root_first_tied_index (maxDepth : Int) (nm : NodesMap) (b : Board)
    (maximizing : Bool) (hlen : b.length = 9)
    (hnf : (Board.getFinishState b).finished = false) (hmd : ¬ maxDepth = 0) :
    (∃ i : Nat,
      (Player.getBestMove maxDepth nm b maximizing 0).1 = (i : Int) ∧
      i ∈ Board.getAvailableMoves b ∧
      Player.childScore maxDepth b maximizing i =
        Player.bestRootScore maxDepth b maximizing ∧
      (∀ j ∈ Board.getAvailableMoves b,
        Player.childScore maxDepth b maximizing j =
          Player.bestRootScore maxDepth b maximizing → i ≤ j)) ∧
    (∀ depth : Nat, ¬ depth = 0 →
      Player.getBestMove maxDepth nm b maximizing depth =
        ((Player.getBestMove maxDepth [] b maximizing depth).1, nm, [])) := by
  have hcond : ¬ ((Board.getFinishState b).finished = true ∨ ((0 : Nat) : Int) = maxDepth) := by
    rintro (h | h)
    · rw [hnf] at h; exact absurd h (by simp)
    · exact hmd (by omega)
  have hce : 1 ≤ countEmpty b := countEmpty_pos_of_not_finished b hlen hnf
  constructor
  · have hchild : ∀ v ∈ (Board.getAvailableMoves b).map (fun (i : Nat) =>
        (Player.getBestMoveF (countEmpty b) maxDepth []
          (Board.insertApply b (if maximizing then CellValue.X else CellValue.O) (i : Int))
          (!maximizing) 1).1), -99 ≤ v ∧ v ≤ 99 := by
      intro v hv
      rcases List.mem_map.mp hv with ⟨i, hi, rfl⟩
      have hce' := countEmpty_insertApply b (if maximizing then CellValue.X else CellValue.O)
        i hlen (cellOf_or maximizing) hi
      have hlen' : (Board.insertApply b
          (if maximizing then CellValue.X else CellValue.O) (i : Int)).length = 9 := by
        rw [insertApply_length]; exact hlen
      have hle := countEmpty_le_length b
      exact getBestMoveF_bounds (countEmpty b) maxDepth [] _ (!maximizing) 1
        (by omega) hlen' (by omega) (by omega)
    have hvlne : (Board.getAvailableMoves b).map (fun (i : Nat) =>
        (Player.getBestMoveF (countEmpty b) maxDepth []
          (Board.insertApply b (if maximizing then CellValue.X else CellValue.O) (i : Int))
          (!maximizing) 1).1) ≠ [] := by
      intro h
      exact moves_ne_nil b hce (List.map_eq_nil_iff.mp h)
    obtain ⟨v0, hv0⟩ := List.exists_mem_of_ne_nil _ hvlne
    have hbmem : (if maximizing then
        ((Board.getAvailableMoves b).map (fun (i : Nat) =>
          (Player.getBestMoveF (countEmpty b) maxDepth []
            (Board.insertApply b (if maximizing then CellValue.X else CellValue.O) (i : Int))
            (!maximizing) 1).1)).foldl max (-100)
      else
        ((Board.getAvailableMoves b).map (fun (i : Nat) =>
          (Player.getBestMoveF (countEmpty b) maxDepth []
            (Board.insertApply b (if maximizing then CellValue.X else CellValue.O) (i : Int))
            (!maximizing) 1).1)).foldl min 100) ∈
        (Board.getAvailableMoves b).map (fun (i : Nat) =>
          (Player.getBestMoveF (countEmpty b) maxDepth []
            (Board.insertApply b (if maximizing then CellValue.X else CellValue.O) (i : Int))
            (!maximizing) 1).1) := by
      cases maximizing with
      | true =>
        simp only [reduceIte]
        rcases foldl_max_eq_or_mem _ (-100) with h | h
        · exfalso
          have ha := mem_le_foldl_max _ (-100) v0 hv0
          have hb := (hchild v0 hv0).1
          rw [h] at ha
          omega
        · exact h
      | false =>
        simp only [Bool.false_eq_true, if_false]
        rcases foldl_min_eq_or_mem _ 100 with h | h
        · exfalso
          have ha := foldl_min_le_mem _ 100 v0 hv0
          have hb := (hchild v0 hv0).2
          rw [h] at ha
          omega
        · exact h
    obtain ⟨i, h1, h2, h3, h4⟩ := root_pick_least
      (fun (i : Nat) => (Player.getBestMoveF (countEmpty b) maxDepth []
        (Board.insertApply b (if maximizing then CellValue.X else CellValue.O) (i : Int))
        (!maximizing) 1).1)
      (Board.getAvailableMoves b) (pairwise_availableAux b 0) maximizing hbmem
    have hval : ∀ j ∈ Board.getAvailableMoves b,
        (Player.getBestMoveF (countEmpty b) maxDepth []
          (Board.insertApply b (if maximizing then CellValue.X else CellValue.O) (j : Int))
          (!maximizing) 1).1 = Player.childScore maxDepth b maximizing j :=
      fun j hj => val_eq_childScoreAt maxDepth b maximizing 0 hlen j hj
    have hmap : (Board.getAvailableMoves b).map (fun (j : Nat) =>
        (Player.getBestMoveF (countEmpty b) maxDepth []
          (Board.insertApply b (if maximizing then CellValue.X else CellValue.O) (j : Int))
          (!maximizing) 1).1) =
        (Board.getAvailableMoves b).map (Player.childScore maxDepth b maximizing) :=
      List.map_congr_left hval
    have hbr : Player.bestRootScore maxDepth b maximizing =
        (if maximizing then
          ((Board.getAvailableMoves b).map (fun (j : Nat) =>
            (Player.getBestMoveF (countEmpty b) maxDepth []
              (Board.insertApply b (if maximizing then CellValue.X else CellValue.O) (j : Int))
              (!maximizing) 1).1)).foldl max (-100)
         else
          ((Board.getAvailableMoves b).map (fun (j : Nat) =>
            (Player.getBestMoveF (countEmpty b) maxDepth []
              (Board.insertApply b (if maximizing then CellValue.X else CellValue.O) (j : Int))
              (!maximizing) 1).1)).foldl min 100) := by
      rw [Player.bestRootScore, Player.bestScoreAt, hmap]
      rfl
    refine ⟨i, ?_, h2, ?_, ?_⟩
    · rw [Player.getBestMove, getBestMoveF_root_char (countEmpty b) maxDepth nm b maximizing
        hcond]
      exact h1
    · rw [← hval i h2, hbr]
      exact h3
    · intro j hj hcj
      apply h4 j hj
      rw [hval j hj, ← hbr]
      exact hcj
  · intro depth hd
    rw [Player.getBestMove, Player.getBestMove]
    exact getBestMoveF_nonroot (countEmpty b + 1) maxDepth nm b maximizing depth hd

/-- A non-terminal board with two empty cells for the C3 witness. -/
def c3WitnessBoard : Board :=
  [CellValue.X, CellValue.O, CellValue.X,
   CellValue.O, CellValue.X, CellValue.O,
   CellValue.Empty, CellValue.Empty, CellValue.O]

/-- C3 witness: the root pick on `c3WitnessBoard` is the lowest best-scoring
available index. -/
theorem c3_root_first_tied_index_witness :
    ∃ i : Nat,
      (Player.getBestMove (-1) [] c3WitnessBoard true 0).1 = (i : Int) ∧
      i ∈ Board.getAvailableMoves c3WitnessBoard ∧
      Player.childScore (-1) c3WitnessBoard true i =
        Player.bestRootScore (-1) c3WitnessBoard true ∧
      (∀ j ∈ Board.getAvailableMoves c3WitnessBoard,
        Player.childScore (-1) c3WitnessBoard true j =
          Player.bestRootScore (-1) c3WitnessBoard true → i ≤ j) :=
  (c3_root_first_tied_index (-1) [] c3WitnessBoard true (by decide) (by decide) (by decide)).1

/-! ### Claim C10: the caller's board is never mutated

The pure model above cannot distinguish in-place mutation from copying, so the
same recursion is re-embedded over an explicit heap: a `Store` is the list of
all `Board` cell arrays allocated so far, addressed by index.  `insert`
mutates the store entry it is called on; the loop of `minimax` allocates a
fresh copy of the current board (`new Board([...board.getState()])`) at the
end of the store and calls `insert` only on that fresh entry, exactly as the
source does.  Scores are computed as in `getBestMoveF`; the tally and the
callback hold only numbers and strings, never a board, and are omitted. -/

abbrev Store := List Board

/-- `Board.insert` executed in place against the board stored at `ref` (the
`Except.error` branch is a thrown exception and leaves the store unchanged;
unreachable from the search on 9-cell boards). -/
def Store.insertAt (st : Store) (ref : Nat) (symbol : CellValue) (position : Int) : Store :=
  match Board.insert (st.getD ref []) symbol position with
  | Except.ok (_, s') => st.set ref s'
  | Except.error _ => st

/-- The board-mutation skeleton of `getBestMove`/`minimax` over a store. -/
def getBestMoveMutF : Nat → Int → Store → Nat → Bool → Nat → Int × Store
  | 0, _, st, _, _, _ => (0, st)
  | fuel + 1, maxDepth, st, ref, maximizing, depth =>
    let state := Board.getFinishState (st.getD ref [])
    if state.finished = true ∨ (depth : Int) = maxDepth then
      (if state.winner = some (Winner.sym CellValue.X) then (100 : Int) - depth
       else if state.winner = some (Winner.sym CellValue.O) then (-100 : Int) + depth
       else 0, st)
    else
      let cellValue := if maximizing then CellValue.X else CellValue.O
      let seed : Int := if maximizing then -100 else 100
      (Board.getAvailableMoves (st.getD ref [])).foldl
        (fun (acc : Int × Store) (index : Nat) =>
          let newRef := acc.2.length
          let st1 := acc.2 ++ [acc.2.getD ref []]
          let st2 := Store.insertAt st1 newRef cellValue (index : Int)
          let child := getBestMoveMutF fuel maxDepth st2 newRef (!maximizing) (depth + 1)
          (if maximizing then max acc.1 child.1 else min acc.1 child.1, child.2))
        (seed, st)

def getBestMoveMut (maxDepth : Int) (st : Store) (ref : Nat) (maximizing : Bool)
    (depth : Nat) : Int × Store :=
  getBestMoveMutF (countEmpty (st.getD ref []) + 1) maxDepth st ref maximizing depth

theorem set_append_last {α : Type} (l : List α) (a b : α) :
    (l ++ [a]).set l.length b = l ++ [b] := by
  induction l with
  | nil => rfl
  | cons c rest ih => simp [List.set_cons_succ, ih]

theorem foldl_store_extends (f : (Int × Store) → Nat → Int × Store)
    (hf : ∀ acc i, ∃ e : Store, (f acc i).2 = acc.2 ++ e) :
    ∀ (ms : List Nat) (acc : Int × Store), ∃ e : Store, (ms.foldl f acc).2 = acc.2 ++ e := by
  intro ms
  induction ms with
  | nil => intro acc; exact ⟨[], by simp⟩
  | cons i rest ih =>
    intro acc
    obtain ⟨e1, h1⟩ := hf acc i
    obtain ⟨e2, h2⟩ := ih (f acc i)
    exact ⟨e1 ++ e2, by rw [List.foldl_cons, h2, h1, List.append_assoc]⟩

theorem getBestMoveMutF_extends (fuel : Nat) :
    ∀ (maxDepth : Int) (st : Store) (ref : Nat) (maximizing : Bool) (depth : Nat),
      ∃ e : Store, (getBestMoveMutF fuel maxDepth st ref maximizing depth).2 = st ++ e := by
  induction fuel with
  | zero => intro _ st _ _ _; exact ⟨[], by simp [getBestMoveMutF]⟩
  | succ fuel ih =>
    intro maxDepth st ref maximizing depth
    by_cases hcond : (Board.getFinishState (st.getD ref [])).finished = true ∨
        (depth : Int) = maxDepth
    · refine ⟨[], ?_⟩
      simp only [getBestMoveMutF, if_pos hcond]
      simp
    · simp only [getBestMoveMutF, if_neg hcond]
      apply foldl_store_extends
      intro acc i
      obtain ⟨e, he⟩ := ih maxDepth
        (Store.insertAt (acc.2 ++ [acc.2.getD ref []]) acc.2.length
          (if maximizing then CellValue.X else CellValue.O) (i : Int))
        acc.2.length (!maximizing) (depth + 1)
      dsimp only
      rw [he]
      rw [Store.insertAt]
      cases hins : Board.insert ((acc.2 ++ [acc.2.getD ref []]).getD acc.2.length [])
          (if maximizing then CellValue.X else CellValue.O) (i : Int) with
      | ok p =>
        exact ⟨[p.2] ++ e, by dsimp only; rw [set_append_last, List.append_assoc]⟩
      | error err =>
        exact ⟨[acc.2.getD ref []] ++ e, by dsimp only; rw [List.append_assoc]⟩

/-- C10: `getBestMove` never modifies the board it is given.  In the heap
embedding, `minimax` applies each candidate move to a freshly allocated copy
(`new Board([...board.getState()])`), so after a full search every board that
existed before the call — in particular the input board at `ref` — still holds
exactly its old cells; only freshly allocated successor boards were mutated. -/
theorem c10_board_frame (maxDepth : Int) (st : Store) (ref : Nat) (maximizing : Bool)
    (depth : Nat) :
    ∀ j : Nat, j < st.length →
      ((getBestMoveMut maxDepth st ref maximizing depth).2).getD j [] = st.getD j [] := by
  intro j hj
  obtain ⟨e, he⟩ := getBestMoveMutF_extends (countEmpty (st.getD ref []) + 1)
    maxDepth st ref maximizing depth
  rw [getBestMoveMut, he]
  exact List.getD_append st e [] j hj

/-- A one-board store holding a position with two empty cells. -/
def c10Store : Store :=
  [[CellValue.X, CellValue.O, CellValue.X,
    CellValue.O, CellValue.X, CellValue.O,
    CellValue.Empty, CellValue.Empty, CellValue.O]]

/-- C10 witness: after a full search from the stored board, the store still
holds the original cells at reference 0. -/
theorem c10_board_frame_witness :
    ((getBestMoveMut (-1) c10Store 0 true 0).2).getD 0 [] = c10Store.getD 0 [] :=
  c10_board_frame (-1) c10Store 0 true 0 0 (by decide)
